import Mathlib

/-!
Verification of the domain-hit consolidation engine of the nf-bakta repository.

The definitions below are a shallow embedding of the two core scripts:

* bin/parse_hmmsearch_output.py — the function read_hmmer, lines 191 to 204:
  tokenization of report lines and assembly of the per-line records;
* bin/hmmsearch.py — compute_overlap (lines 94 to 128) and the pipeline in
  main (lines 206 to 296): sorting, the domain-coverage quality filter,
  row indexing, grouping by feature id, pairwise overlap marking, the drop
  table, the final table with canonicalized profile ids, and the
  missing-features statistics.

Python floats are embedded as rationals; the exact integer division inside
compute_overlap is Rat.divInt.  Python string operations are embedded as
structural functions over the character list of the string so that every
definition evaluates inside the kernel.
-/

/-! ## Tabular report reading (bin/parse_hmmsearch_output.py, read_hmmer) -/

/-- Characters removed by the Python strip method on each line. -/
def isPySpace (c : Char) : Bool :=
  c == ' ' || c == '\t' || c == '\n' || c == '\r' || c == '\x0b' || c == '\x0c'

/-- Embedding of the Python strip call: remove leading and trailing whitespace. -/
def pyStrip (cs : List Char) : List Char :=
  ((cs.dropWhile isPySpace).reverse.dropWhile isPySpace).reverse

/-- Embedding of the Python split call with the single-space separator: the
pieces between consecutive space characters, empty pieces included, exactly as
the source expression line.strip().split(" ") produces before filtering. -/
def splitOnSpaceChar : List Char → List (List Char)
  | [] => [[]]
  | c :: rest =>
    match splitOnSpaceChar rest, c == ' ' with
    | r, true => [] :: r
    | [], false => [[c]]
    | t :: r, false => (c :: t) :: r

/-- Token list of one report line, as the source computes it:
list(filter(bool, line.strip().split(" "))).  Note the separator is the space
character only; a tab inside the line is not a separator. -/
def tokenize (line : String) : List String :=
  ((splitOnSpaceChar (pyStrip line.data)).filter (fun t => !t.isEmpty)).map
    (fun t => String.mk t)

/-- Embedding of line.startswith("#"): comment and header lines. -/
def isCommentLine (line : String) : Bool :=
  line.data.headD ' ' == '#'

/-- Embedding of the Python join call " ".join(tokens). -/
def joinSpaces : List String → String
  | [] => ""
  | [t] => t
  | t :: ts => t ++ " " ++ joinSpaces ts

/-- The two report layouts accepted by read_hmmer. -/
inductive HmmFormat where
  | tblout
  | domtblout
deriving DecidableEq

/-- The fixed-field count of each layout: cut_index = 18 for tblout and 22 for
domtblout. -/
def cutIndexOf : HmmFormat → Nat
  | .tblout => 18
  | .domtblout => 22

/-- One data row as built by the loop body of read_hmmer:
row = row[:cut_index] + [" ".join(row[cut_index:])]. -/
def parseLine (cut : Nat) (line : String) : List String :=
  let row := tokenize line
  row.take cut ++ [joinSpaces (row.drop cut)]

/-- The data list built by read_hmmer: every line that does not start with the
hash character contributes exactly one row; hash lines go to the header list
and are skipped here. -/
def read_hmmer_rows (fmt : HmmFormat) (lines : List String) : List (List String) :=
  (lines.filter (fun l => !isCommentLine l)).map (parseLine (cutIndexOf fmt))

/-- Modelled from the spec words, for comparison with the source tokenizer:
the spec says tokens are obtained by splitting on runs of whitespace and
discarding empty tokens.  This definition follows those words, not the code. -/
def specSplitWhitespace : List Char → List (List Char)
  | [] => [[]]
  | c :: rest =>
    match specSplitWhitespace rest, isPySpace c with
    | r, true => [] :: r
    | [], false => [[c]]
    | t :: r, false => (c :: t) :: r

/-- Modelled from the spec words: whitespace-run tokenization of a line. -/
def specTokenize (line : String) : List String :=
  ((specSplitWhitespace line.data).filter (fun t => !t.isEmpty)).map
    (fun t => String.mk t)

/-- Modelled from the spec words: the record the spec describes for one line,
first cut tokens as fixed fields and the remaining tokens rejoined with single
spaces. -/
def specParseLine (cut : Nat) (line : String) : List String :=
  (specTokenize line).take cut ++ [joinSpaces ((specTokenize line).drop cut)]

/-! ## Overlap computation (bin/hmmsearch.py, compute_overlap) -/

/-- Embedding of compute_overlap.  The source computes
overlap_start = max(start1, start2), overlap_end = min(end1, end2), returns 0
when overlap_end is not greater than overlap_start, and otherwise divides the
overlap length by the length of the shorter segment.  The exact rational
division of the two integers is Rat.divInt. -/
def compute_overlap (s1 e1 s2 e2 : Int) : ℚ :=
  if min e1 e2 > max s1 s2 then
    Rat.divInt (min e1 e2 - max s1 s2) (min (e1 - s1) (e2 - s2))
  else 0

/-! ## Hit rows (bin/hmmsearch.py, Pfam model and main) -/

/-- One row of the processed hit table, with the fields of the Pfam pydantic
model in serialization order.  The extra name key built in run_hmmsearch is
discarded by the model and therefore absent here. -/
structure RawHit where
  pfam_id : String
  feature_id : String
  pfam_start : Int
  pfam_end : Int
  pfam_len : Int
  aln_len : Int
  evalue : ℚ
  score : ℚ
  aa_cov : ℚ
  domain_cov : ℚ
deriving DecidableEq, Inhabited

/-- A hit row after with_row_index: the dense ordinal plus the row. -/
structure IndexedHit where
  row_index : Nat
  hit : RawHit
deriving DecidableEq, Inhabited

/-! ## Sorting (polars sort calls in main) -/

/-- Lexicographic comparison of character lists by code point, the order
underlying string sorting. -/
def charsLt : List Char → List Char → Bool
  | [], [] => false
  | [], _ :: _ => true
  | _ :: _, [] => false
  | a :: as, b :: bs =>
    if a.toNat < b.toNat then true
    else if b.toNat < a.toNat then false
    else charsLt as bs

/-- Strict string order by code point. -/
def strLt (a b : String) : Bool := charsLt a.data b.data

/-- Insert one element in front of the first element it is not after; keeps a
stable order for equal keys. -/
def insertSorted (le : α → α → Bool) (a : α) : List α → List α
  | [] => [a]
  | b :: t => if le a b then a :: b :: t else b :: insertSorted le a t

/-- Stable insertion sort, the embedding of the polars sort calls: the result
is ordered by the given key comparison and is a permutation of the input. -/
def sortByLE (le : α → α → Bool) : List α → List α
  | [] => []
  | a :: t => insertSorted le a (sortByLE le t)

/-- Key order of the first sort in main: by feature_id, then pfam_start, both
ascending. -/
def hitLE (a b : RawHit) : Bool :=
  strLt a.feature_id b.feature_id ||
    (a.feature_id == b.feature_id && decide (a.pfam_start ≤ b.pfam_start))

/-- Key order of the second sort in main: by feature_id, then row_index, both
ascending. -/
def idxLE (a b : IndexedHit) : Bool :=
  strLt a.hit.feature_id b.hit.feature_id ||
    (a.hit.feature_id == b.hit.feature_id && decide (a.row_index ≤ b.row_index))

/-- The hit table right after the sort on feature_id and pfam_start. -/
def sortHits (raw : List RawHit) : List RawHit := sortByLE hitLE raw

/-- The table written to the hmmsearch_all_hits.csv output in main, line 211:
the sorted raw hits, written before the quality filter runs and before
row_index is assigned. -/
def allHitsTable (raw : List RawHit) : List RawHit := sortHits raw

/-! ## Quality filter and row indexing (main, lines 222 to 228) -/

/-- Embedding of hits.filter(pl.col("domain_cov") >= min_domain_coverage):
the rows whose domain coverage meets the bound, order preserved.  No drop
record is produced at this stage in the source. -/
def qualityKept (minCov : ℚ) (l : List RawHit) : List RawHit :=
  l.filter (fun r => decide (minCov ≤ r.domain_cov))

/-- Embedding of with_row_index: attach the dense ordinal 0, 1, 2, ... -/
def withRowIndex (l : List RawHit) : List IndexedHit :=
  l.enum.map (fun p => ⟨p.1, p.2⟩)

/-- The filtered, indexed and re-sorted table called hits from line 223 on. -/
def filteredIndexed (minCov : ℚ) (raw : List RawHit) : List IndexedHit :=
  sortByLE idxLE (withRowIndex (qualityKept minCov (sortHits raw)))

/-! ## Grouping by feature (hits.partition_by("feature_id")) -/

/-- Fuel-driven grouping of rows by feature id, in order of first occurrence;
the fuel is the list length, which always suffices. -/
def partitionGo : Nat → List IndexedHit → List (List IndexedHit)
  | _, [] => []
  | 0, _ :: _ => []
  | fuel + 1, h :: t =>
    (h :: t.filter (fun x => x.hit.feature_id == h.hit.feature_id)) ::
      partitionGo fuel (t.filter (fun x => !(x.hit.feature_id == h.hit.feature_id)))

/-- Embedding of hits.partition_by("feature_id"). -/
def partitionByFeature (l : List IndexedHit) : List (List IndexedHit) :=
  partitionGo l.length l

/-! ## Pairwise overlap marking (main, lines 230 to 247) -/

/-- The decision of the loop body once an overlapping pair is found: the row
with the strictly lower e-value survives, the other one is marked with a
reason naming the pfam id of the competitor; when neither e-value is strictly
lower, the else branch marks the first row of the pair. -/
def pairDecision (i j : Nat) (r r2 : IndexedHit) : Nat × String :=
  if r.hit.evalue < r2.hit.evalue then
    (j, "Overlaps: " ++ r.hit.pfam_id)
  else
    (i, "Overlaps: " ++ r2.hit.pfam_id)

/-- One iteration of the inner loop for the pair at positions i and j of the
group: when the overlap fraction exceeds min_overlap, the pair decision fires. -/
def pairCheck (mo : ℚ) (rows : List IndexedHit) (i j : Nat) : Option (Nat × String) :=
  if compute_overlap (rows.getD i default).hit.pfam_start (rows.getD i default).hit.pfam_end
      (rows.getD j default).hit.pfam_start (rows.getD j default).hit.pfam_end > mo then
    some (pairDecision i j (rows.getD i default) (rows.getD j default))
  else none

/-- All marking events of the double loop over one group, in loop order: the
outer index i runs over the group, the inner index j skips j ≤ i. -/
def overlapMarkEvents (mo : ℚ) (rows : List IndexedHit) : List (Nat × String) :=
  ((List.range rows.length).map (fun i =>
    (List.range rows.length).filterMap (fun j =>
      if i < j then pairCheck mo rows i j else none))).flatten

/-- The group positions marked for removal by some pairwise comparison. -/
def markedPositions (mo : ℚ) (rows : List IndexedHit) : List Nat :=
  (overlapMarkEvents mo rows).map Prod.fst

/-- The group positions never marked by any pairwise comparison. -/
def groupSurvivors (mo : ℚ) (rows : List IndexedHit) : List Nat :=
  (List.range rows.length).filter (fun k => !(markedPositions mo rows).contains k)

/-- The rows a group contributes to the drop list, each with its reason. -/
def groupDropRows (mo : ℚ) (g : List IndexedHit) : List (IndexedHit × String) :=
  (overlapMarkEvents mo g).map (fun e => (g.getD e.1 default, e.2))

/-- The drop list accumulated over all feature groups (the list called drop in
main). -/
def dropCandidates (minCov mo : ℚ) (raw : List RawHit) : List (IndexedHit × String) :=
  ((partitionByFeature (filteredIndexed minCov raw)).map (groupDropRows mo)).flatten

/-- Embedding of drop_candidates.get_column("row_index").unique(). -/
def dropRowIndices (minCov mo : ℚ) (raw : List RawHit) : List Nat :=
  ((dropCandidates minCov mo raw).map (fun e => e.1.row_index)).dedup

/-! ## Final table and canonical profile id (main, lines 255 to 266) -/

/-- Embedding of the polars expression str.split(".").list.first(): the
characters before the first period character. -/
def takeUntilDot : List Char → List Char
  | [] => []
  | c :: rest => if c == '.' then [] else c :: takeUntilDot rest

/-- Embedding of str.replace("PF", "pfam"): rewrite the first occurrence of
the two characters P F, case sensitively, leaving the rest unchanged. -/
def replacePF : List Char → List Char
  | 'P' :: 'F' :: rest => 'p' :: 'f' :: 'a' :: 'm' :: rest
  | c :: rest => c :: replacePF rest
  | [] => []

/-- The canonical short profile id of the final table: version suffix after
the first period stripped, first PF occurrence rewritten to pfam. -/
def shortProfileId (s : String) : String :=
  String.mk (replacePF (takeUntilDot s.data))

/-- The rows kept by the final filter: row_index not among the dropped ones. -/
def finalRows (minCov mo : ℚ) (raw : List RawHit) : List IndexedHit :=
  (filteredIndexed minCov raw).filter
    (fun r => !(dropRowIndices minCov mo raw).contains r.row_index)

/-- The final table: each kept row together with its canonicalized pfam_id
column (the original id is kept under the renamed pfam_id_version column,
here the pfam_id field of the row). -/
def finalTable (minCov mo : ℚ) (raw : List RawHit) : List (IndexedHit × String) :=
  (finalRows minCov mo raw).map (fun r => (r, shortProfileId r.hit.pfam_id))

/-! ## Missing-feature statistics (main, lines 276 to 290) -/

/-- Embedding of drop_candidates.get_column("feature_id").unique(). -/
def droppedFeatures (minCov mo : ℚ) (raw : List RawHit) : List String :=
  ((dropCandidates minCov mo raw).map (fun e => e.1.hit.feature_id)).dedup

/-- Embedding of all_viable_features: the distinct feature ids of the
post-quality-filter table whose feature id has no dropped hit at all. -/
def allViableFeatures (minCov mo : ℚ) (raw : List RawHit) : List String :=
  (((filteredIndexed minCov raw).filter
      (fun r => !(droppedFeatures minCov mo raw).contains r.hit.feature_id)).map
    (fun r => r.hit.feature_id)).dedup

/-- Embedding of final_features: the distinct feature ids of the final table. -/
def finalFeatures (minCov mo : ℚ) (raw : List RawHit) : List String :=
  ((finalRows minCov mo raw).map (fun r => r.hit.feature_id)).dedup

/-- Embedding of missing_features: viable features absent from the final
table; this is the list the stats file reports, and its length is the
reported count. -/
def missingFeatures (minCov mo : ℚ) (raw : List RawHit) : List String :=
  (allViableFeatures minCov mo raw).filter
    (fun f => !(finalFeatures minCov mo raw).contains f)

/-! ## Default configuration values (argparse defaults in usage) -/

/-- Default of the min_domain_coverage option, 0.4. -/
def minDomCovDefault : ℚ := Rat.divInt 2 5

/-- Default of the min_overlap option, 0.5. -/
def minOverlapDefault : ℚ := Rat.divInt 1 2

/-! ## Concrete rows used by witnesses and counterexamples -/

/-- A hit whose domain coverage 0.1 fails the default bound 0.4. -/
def rLow : RawHit :=
  ⟨"PF99999.1", "F1", 1, 50, 100, 50, Rat.divInt 1 1000, 10, Rat.divInt 1 2, Rat.divInt 1 10⟩

/-- First row of an equal-e-value overlapping pair. -/
def ihA : IndexedHit :=
  ⟨0, ⟨"PFA1.1", "F1", 0, 10, 10, 10, Rat.divInt 1 1000, 5, 1, 1⟩⟩

/-- Second row of an equal-e-value overlapping pair. -/
def ihB : IndexedHit :=
  ⟨1, ⟨"PFB2.1", "F1", 0, 10, 10, 10, Rat.divInt 1 1000, 5, 1, 1⟩⟩

/-- Stronger row of a distinct-e-value overlapping pair, e-value 1e-10. -/
def ihC : IndexedHit :=
  ⟨0, ⟨"PF00010.3", "F2", 10, 40, 30, 30, Rat.divInt 1 10000000000, 50, 1, 1⟩⟩

/-- Weaker row of a distinct-e-value overlapping pair, e-value 1e-3. -/
def ihD : IndexedHit :=
  ⟨1, ⟨"PF00020.7", "F2", 20, 30, 10, 10, Rat.divInt 1 1000, 5, 1, 1⟩⟩

/-! ## Helper lemmas -/

/-- Membership in an insertion step. -/
lemma mem_insertSorted {α : Type} (le : α → α → Bool) (a x : α) (l : List α) :
    x ∈ insertSorted le a l ↔ x = a ∨ x ∈ l := by
  induction l with
  | nil => simp [insertSorted]
  | cons b t ih =>
    by_cases h : le a b
    · simp [insertSorted, h]
    · simp only [insertSorted, h]
      simp [ih]
      tauto

/-- An insertion step permutes the element onto the list. -/
lemma insertSorted_perm {α : Type} (le : α → α → Bool) (a : α) (l : List α) :
    (insertSorted le a l).Perm (a :: l) := by
  induction l with
  | nil => simp [insertSorted]
  | cons b t ih =>
    by_cases h : le a b
    · simp [insertSorted, h]
    · simp only [insertSorted, h]
      exact (ih.cons b).trans (List.Perm.swap a b t)

/-- The stable sort permutes its input. -/
lemma sortByLE_perm {α : Type} (le : α → α → Bool) (l : List α) :
    (sortByLE le l).Perm l := by
  induction l with
  | nil => simp [sortByLE]
  | cons a t ih => exact (insertSorted_perm le a (sortByLE le t)).trans (ih.cons a)

/-- The second component of an enumerated pair is in the underlying list. -/
lemma snd_mem_of_mem_enumFrom {α : Type} (l : List α) (n : Nat) (p : Nat × α)
    (h : p ∈ l.enumFrom n) : p.2 ∈ l := by
  induction l generalizing n with
  | nil => simp [List.enumFrom] at h
  | cons a t ih =>
    simp only [List.enumFrom, List.mem_cons] at h
    rcases h with h | h
    · simp [h]
    · exact List.mem_cons_of_mem a (ih (n + 1) h)

/-- The underlying hit of an indexed row comes from the un-indexed table. -/
lemma hit_mem_of_mem_withRowIndex (l : List RawHit) (x : IndexedHit)
    (hx : x ∈ withRowIndex l) : x.hit ∈ l := by
  simp only [withRowIndex, List.mem_map] at hx
  obtain ⟨p, hp, rfl⟩ := hx
  exact snd_mem_of_mem_enumFrom l 0 p hp

/-- A boolean filter partitions the length of a list. -/
lemma length_filter_partition {α : Type} (p : α → Bool) (l : List α) :
    (l.filter p).length + (l.filter (fun x => !p x)).length = l.length := by
  induction l with
  | nil => rfl
  | cons a t ih => by_cases h : p a <;> simp [List.filter_cons, h] <;> omega

/-- Rows of a group produced by the grouping function come from its input. -/
lemma mem_of_mem_partitionGo (x : IndexedHit) :
    ∀ (fuel : Nat) (l g : List IndexedHit), g ∈ partitionGo fuel l → x ∈ g → x ∈ l := by
  intro fuel
  induction fuel with
  | zero =>
    intro l g hg _
    cases l <;> simp [partitionGo] at hg
  | succ fuel ih =>
    intro l g hg hx
    cases l with
    | nil => simp [partitionGo] at hg
    | cons h t =>
      simp only [partitionGo, List.mem_cons] at hg
      rcases hg with rfl | hg
      · rcases List.mem_cons.mp hx with rfl | hx2
        · exact List.mem_cons_self _ _
        · exact List.mem_cons_of_mem _ (List.mem_of_mem_filter hx2)
      · exact List.mem_cons_of_mem _ (List.mem_of_mem_filter (ih _ _ hg hx))

/-- Every row of the post-filter table meets the coverage bound. -/
lemma filteredIndexed_domCov (minCov : ℚ) (raw : List RawHit) (x : IndexedHit)
    (hx : x ∈ filteredIndexed minCov raw) : minCov ≤ x.hit.domain_cov := by
  unfold filteredIndexed at hx
  rw [(sortByLE_perm idxLE _).mem_iff] at hx
  have hhit := hit_mem_of_mem_withRowIndex _ _ hx
  unfold qualityKept at hhit
  have h2 := (List.mem_filter.mp hhit).2
  exact of_decide_eq_true h2

/-- Characterization of one marking event of the double loop: it arises from
a pair of positions i before j inside the group whose overlap exceeds the
threshold, and the decision follows the e-value comparison of the pair. -/
lemma overlapMarkEvents_mem_spec (mo : ℚ) (rows : List IndexedHit) (p : Nat) (s : String)
    (h : (p, s) ∈ overlapMarkEvents mo rows) :
    ∃ i j, i < j ∧ j < rows.length ∧
      compute_overlap (rows.getD i default).hit.pfam_start (rows.getD i default).hit.pfam_end
        (rows.getD j default).hit.pfam_start (rows.getD j default).hit.pfam_end > mo ∧
      (((rows.getD i default).hit.evalue < (rows.getD j default).hit.evalue ∧ p = j ∧
          s = "Overlaps: " ++ (rows.getD i default).hit.pfam_id) ∨
        (¬ (rows.getD i default).hit.evalue < (rows.getD j default).hit.evalue ∧ p = i ∧
          s = "Overlaps: " ++ (rows.getD j default).hit.pfam_id)) := by
  simp only [overlapMarkEvents, List.mem_flatten, List.mem_map] at h
  obtain ⟨inner, ⟨i, hi, rfl⟩, hmem⟩ := h
  rw [List.mem_filterMap] at hmem
  obtain ⟨j, hj, hsome⟩ := hmem
  rw [List.mem_range] at hj
  by_cases hij : i < j
  · rw [if_pos hij] at hsome
    unfold pairCheck at hsome
    by_cases hov : compute_overlap (rows.getD i default).hit.pfam_start
        (rows.getD i default).hit.pfam_end (rows.getD j default).hit.pfam_start
        (rows.getD j default).hit.pfam_end > mo
    · rw [if_pos hov] at hsome
      have hdec := Option.some.inj hsome
      unfold pairDecision at hdec
      by_cases hev : (rows.getD i default).hit.evalue < (rows.getD j default).hit.evalue
      · rw [if_pos hev] at hdec
        refine ⟨i, j, hij, hj, hov, Or.inl ⟨hev, ?_, ?_⟩⟩
        · exact ((Prod.mk.injEq _ _ _ _).mp hdec).1.symm
        · exact ((Prod.mk.injEq _ _ _ _).mp hdec).2.symm
      · rw [if_neg hev] at hdec
        refine ⟨i, j, hij, hj, hov, Or.inr ⟨hev, ?_, ?_⟩⟩
        · exact ((Prod.mk.injEq _ _ _ _).mp hdec).1.symm
        · exact ((Prod.mk.injEq _ _ _ _).mp hdec).2.symm
    · rw [if_neg hov] at hsome
      exact absurd hsome (by simp)
  · rw [if_neg hij] at hsome
    exact absurd hsome (by simp)

/-- A marked position lies inside the group. -/
lemma overlapMarkEvents_pos_lt (mo : ℚ) (rows : List IndexedHit) (p : Nat) (s : String)
    (h : (p, s) ∈ overlapMarkEvents mo rows) : p < rows.length := by
  obtain ⟨i, j, hij, hjlen, _, hcase⟩ := overlapMarkEvents_mem_spec mo rows p s h
  rcases hcase with ⟨_, rfl, _⟩ | ⟨_, rfl, _⟩
  · exact hjlen
  · exact lt_trans hij hjlen

/-- The decision of an overlapping pair is recorded among the marking events. -/
lemma pairDecision_mem_events (mo : ℚ) (rows : List IndexedHit) (i j : Nat)
    (hij : i < j) (hj : j < rows.length)
    (hov : compute_overlap (rows.getD i default).hit.pfam_start
      (rows.getD i default).hit.pfam_end (rows.getD j default).hit.pfam_start
      (rows.getD j default).hit.pfam_end > mo) :
    pairDecision i j (rows.getD i default) (rows.getD j default) ∈ overlapMarkEvents mo rows := by
  simp only [overlapMarkEvents, List.mem_flatten, List.mem_map]
  refine ⟨(List.range rows.length).filterMap
    (fun j2 => if i < j2 then pairCheck mo rows i j2 else none), ⟨i, List.mem_range.mpr (lt_trans hij hj), rfl⟩, ?_⟩
  rw [List.mem_filterMap]
  refine ⟨j, List.mem_range.mpr hj, ?_⟩
  rw [if_pos hij]
  unfold pairCheck
  rw [if_pos hov]

/-- Every drop candidate row belongs to the post-quality-filter table. -/
lemma dropCandidates_fst_mem (minCov mo : ℚ) (raw : List RawHit) (e : IndexedHit × String)
    (he : e ∈ dropCandidates minCov mo raw) : e.1 ∈ filteredIndexed minCov raw := by
  unfold dropCandidates at he
  rw [List.mem_flatten] at he
  obtain ⟨dl, hdl, hedl⟩ := he
  rw [List.mem_map] at hdl
  obtain ⟨g, hg, rfl⟩ := hdl
  unfold groupDropRows at hedl
  rw [List.mem_map] at hedl
  obtain ⟨ev, hev, rfl⟩ := hedl
  obtain ⟨p, s⟩ := ev
  have hp : p < g.length := overlapMarkEvents_pos_lt mo g p s hev
  have hmg : g.getD p default ∈ g := by
    rw [List.getD_eq_getElem g default hp]
    exact List.getElem_mem hp
  unfold partitionByFeature at hg
  exact mem_of_mem_partitionGo _ _ _ _ hg hmg

/-- Every nonempty finite e-value sequence has a last position attaining its
minimum: a position with minimal value such that every later position is
strictly larger. -/
lemma exists_last_min (e : Nat → ℚ) :
    ∀ n : Nat, 0 < n → ∃ k, k < n ∧ (∀ t, t < n → e k ≤ e t) ∧
      (∀ t, k < t → t < n → e k < e t) := by
  intro n
  induction n with
  | zero => omega
  | succ n ih =>
    intro _
    by_cases hn : 0 < n
    · obtain ⟨k, hk, hmin, hstrict⟩ := ih hn
      by_cases hc : e n ≤ e k
      · refine ⟨n, by omega, ?_, by omega⟩
        intro t ht
        by_cases htn : t < n
        · exact le_trans hc (hmin t htn)
        · have : t = n := by omega
          simp [this]
      · refine ⟨k, by omega, ?_, ?_⟩
        · intro t ht
          by_cases htn : t < n
          · exact hmin t htn
          · have : t = n := by omega
            subst this
            exact le_of_lt (lt_of_not_le hc)
        · intro t hkt ht
          by_cases htn : t < n
          · exact hstrict t hkt htn
          · have : t = n := by omega
            subst this
            exact lt_of_not_le hc
    · have : n = 0 := by omega
      subst this
      refine ⟨0, by omega, ?_, by omega⟩
      intro t ht
      have : t = 0 := by omega
      simp [this]

/-! ## Concrete report lines used by witnesses and counterexamples -/

/-- A report line with exactly 22 space-separated tokens. -/
def fullLine : String :=
  "f1 f2 f3 f4 f5 f6 f7 f8 f9 f10 f11 f12 f13 f14 f15 f16 f17 f18 f19 f20 f21 f22"

/-- A report line with 19 whitespace-run tokens, the first two separated by a
tab instead of a space. -/
def tabLine : String :=
  "w1\tw2 w3 w4 w5 w6 w7 w8 w9 w10 w11 w12 w13 w14 w15 w16 w17 w18 w19"

/-! ## Claim theorems -/

/-- C1: the spec claims the statistics record exactly the distinct feature ids
present before filtering but absent from the final table.  At this concrete
run, feature F1 is present in the raw input, its only hit fails the default
coverage bound (0.1 below 0.4), the final table is empty, yet the
missing-features list computed by the code is empty and the reported count is
zero: the code computes the list from the post-quality-filter table only and
additionally excludes every feature with an overlap-dropped hit, so a feature
lost to the quality filter is never reported. -/
theorem missing_features_blind_spot :
    "F1" ∈ [rLow].map RawHit.feature_id ∧
    finalTable minDomCovDefault minOverlapDefault [rLow] = [] ∧
    missingFeatures minDomCovDefault minOverlapDefault [rLow] = [] ∧
    (missingFeatures minDomCovDefault minOverlapDefault [rLow]).length = 0 := by
  decide

/-- C2 counterexample: two rows of one feature group with exactly equal
e-values and full overlap.  The claim says the second-compared (later) row is
marked on a tie; the code marks position 0, the first-compared row, with a
reason naming the pfam id of the second row, and no event marks position 1. -/
theorem overlap_tie_marks_first_row :
    ihA.hit.evalue = ihB.hit.evalue ∧
    compute_overlap ihA.hit.pfam_start ihA.hit.pfam_end ihB.hit.pfam_start
      ihB.hit.pfam_end > minOverlapDefault ∧
    (overlapMarkEvents minOverlapDefault [ihA, ihB]).map Prod.fst = [0] := by
  decide

/-- C2 (amended): for every pair of group positions i before j whose overlap
fraction exceeds min_overlap, the pair decision is recorded among the marking
events; the row with the strictly higher e-value is the one marked, with a
reason naming the pfam id of the competitor, and on an exact e-value tie the
first-compared row (position i, the earlier row) is the one marked. -/
theorem overlap_pair_marking (mo : ℚ) (rows : List IndexedHit) (i j : Nat)
    (hij : i < j) (hj : j < rows.length)
    (hov : compute_overlap (rows.getD i default).hit.pfam_start
      (rows.getD i default).hit.pfam_end (rows.getD j default).hit.pfam_start
      (rows.getD j default).hit.pfam_end > mo) :
    pairDecision i j (rows.getD i default) (rows.getD j default) ∈
      overlapMarkEvents mo rows ∧
    ((rows.getD i default).hit.evalue < (rows.getD j default).hit.evalue →
      pairDecision i j (rows.getD i default) (rows.getD j default) =
        (j, "Overlaps: " ++ (rows.getD i default).hit.pfam_id)) ∧
    ((rows.getD j default).hit.evalue < (rows.getD i default).hit.evalue →
      pairDecision i j (rows.getD i default) (rows.getD j default) =
        (i, "Overlaps: " ++ (rows.getD j default).hit.pfam_id)) ∧
    ((rows.getD i default).hit.evalue = (rows.getD j default).hit.evalue →
      pairDecision i j (rows.getD i default) (rows.getD j default) =
        (i, "Overlaps: " ++ (rows.getD j default).hit.pfam_id)) := by
  refine ⟨pairDecision_mem_events mo rows i j hij hj hov, ?_, ?_, ?_⟩
  · intro hev
    unfold pairDecision
    rw [if_pos hev]
  · intro hev
    unfold pairDecision
    rw [if_neg (lt_asymm hev)]
  · intro hev
    unfold pairDecision
    rw [if_neg (by rw [hev]; exact lt_irrefl _)]

/-- C2 witness: the amended pair rule applied to a concrete overlapping pair
with distinct e-values. -/
theorem overlap_pair_marking_witness :
    (0 : Nat) < 1 ∧ 1 < ([ihC, ihD] : List IndexedHit).length ∧
    compute_overlap ihC.hit.pfam_start ihC.hit.pfam_end ihD.hit.pfam_start
      ihD.hit.pfam_end > minOverlapDefault ∧
    pairDecision 0 1 ihC ihD ∈ overlapMarkEvents minOverlapDefault [ihC, ihD] :=
  ⟨by decide, by decide, by decide,
    (overlap_pair_marking minOverlapDefault [ihC, ihD] 0 1 (by decide) (by decide)
      (by decide)).1⟩

/-- C3 counterexample: a single input row failing the coverage bound.  The
code emits no drop record at the quality stage (the drop list of the run is
empty), so the kept count plus the drop-record count does not equal the input
row count, and no record names the violated bound for the failing row. -/
theorem quality_drop_records_absent :
    rLow.domain_cov < minDomCovDefault ∧
    dropCandidates minDomCovDefault minOverlapDefault [rLow] = [] ∧
    (qualityKept minDomCovDefault (sortHits [rLow])).length +
        (dropCandidates minDomCovDefault minOverlapDefault [rLow]).length ≠
      ([rLow] : List RawHit).length := by
  decide

/-- C3 (amended): the quality filter keeps exactly the rows whose domain
coverage meets the bound, in input order; the kept count plus the failing-row
count equals the input count; and every drop record the run produces comes
from a row that passed the quality filter, so no drop record documents a
quality-stage rejection. -/
theorem quality_filter_partition (minCov mo : ℚ) (l raw : List RawHit) :
    qualityKept minCov l = l.filter (fun r => decide (minCov ≤ r.domain_cov)) ∧
    (qualityKept minCov l).length +
        (l.filter (fun r => !decide (minCov ≤ r.domain_cov))).length = l.length ∧
    (dropCandidates minCov mo raw).all
      (fun e => decide (minCov ≤ e.1.hit.domain_cov)) = true := by
  refine ⟨rfl, length_filter_partition _ l, ?_⟩
  rw [List.all_eq_true]
  intro e he
  exact decide_eq_true
    (filteredIndexed_domCov minCov raw e.1 (dropCandidates_fst_mem minCov mo raw e he))

/-- C4 counterexample: a domtblout parse over one full-width line and one
line with only three tokens.  The loop produces a record for the short line
(its available tokens plus an empty trailing field) instead of failing: no
malformed-row error exists at this stage, and the parse is not aborted. -/
theorem short_line_not_rejected :
    read_hmmer_rows .domtblout [fullLine, "a b c"] =
      [["f1", "f2", "f3", "f4", "f5", "f6", "f7", "f8", "f9", "f10", "f11",
        "f12", "f13", "f14", "f15", "f16", "f17", "f18", "f19", "f20", "f21",
        "f22", ""],
       ["a", "b", "c", ""]] ∧
    (read_hmmer_rows .domtblout [fullLine, "a b c"]).length = 2 := by
  decide

/-- C4 (amended): a data line with fewer tokens than the fixed-field count is
not rejected; the loop emits a record holding all available tokens plus an
empty trailing description field. -/
theorem short_line_passthrough (cut : Nat) (line : String)
    (h : (tokenize line).length < cut) :
    parseLine cut line = tokenize line ++ [""] := by
  show (tokenize line).take cut ++ [joinSpaces ((tokenize line).drop cut)] =
    tokenize line ++ [""]
  rw [List.take_of_length_le (le_of_lt h), List.drop_eq_nil_of_le (le_of_lt h)]
  rfl

/-- C4 witness: the short-line behavior at a concrete three-token line under
the domtblout fixed-field count. -/
theorem short_line_passthrough_witness :
    (tokenize "a b c").length < 22 ∧ parseLine 22 "a b c" = tokenize "a b c" ++ [""] :=
  ⟨by decide, short_line_passthrough 22 "a b c" (by decide)⟩

/-- C5 counterexample: a line with 19 whitespace-run tokens whose first two
tokens are separated by a tab.  The source splits on the space character only,
so it sees 18 tokens and its first field glues the two claim-side tokens
together with the tab: the produced record differs from the record the claim
describes (first 18 whitespace tokens plus rejoined remainder). -/
theorem tab_line_record_differs :
    (specTokenize tabLine).length = 19 ∧
    (tokenize tabLine).length = 18 ∧
    parseLine 18 tabLine ≠ specParseLine 18 tabLine ∧
    (parseLine 18 tabLine).headD "" = "w1\tw2" ∧
    (specParseLine 18 tabLine).headD "" = "w1" := by
  decide

/-- C5 (amended): parsing produces exactly one record per non-comment line;
tokens are obtained by splitting the stripped line on runs of the space
character (tabs are not separators) and discarding empty tokens, and for a
line with at least N such tokens the record is the first N tokens followed by
the remaining tokens rejoined with single spaces, N + 1 fields in all. -/
theorem read_hmmer_record_shape (fmt : HmmFormat) (lines : List String)
    (line : String) (h : cutIndexOf fmt ≤ (tokenize line).length) :
    (read_hmmer_rows fmt lines).length =
      (lines.filter (fun l => !isCommentLine l)).length ∧
    parseLine (cutIndexOf fmt) line =
      (tokenize line).take (cutIndexOf fmt) ++
        [joinSpaces ((tokenize line).drop (cutIndexOf fmt))] ∧
    (parseLine (cutIndexOf fmt) line).length = cutIndexOf fmt + 1 := by
  refine ⟨?_, rfl, ?_⟩
  · unfold read_hmmer_rows
    rw [List.length_map]
  · unfold parseLine
    rw [List.length_append, List.length_take]
    simp [min_eq_left h]

/-- C5 witness: the record shape at a concrete 18-token line under the tblout
fixed-field count. -/
theorem read_hmmer_record_shape_witness :
    cutIndexOf .tblout ≤ (tokenize tabLine).length ∧
    ((read_hmmer_rows .tblout [tabLine]).length =
        (([tabLine] : List String).filter (fun l => !isCommentLine l)).length ∧
      parseLine (cutIndexOf .tblout) tabLine =
        (tokenize tabLine).take (cutIndexOf .tblout) ++
          [joinSpaces ((tokenize tabLine).drop (cutIndexOf .tblout))] ∧
      (parseLine (cutIndexOf .tblout) tabLine).length = cutIndexOf .tblout + 1) :=
  ⟨by decide, read_hmmer_record_shape .tblout [tabLine] tabLine (by decide)⟩

/-- C6 counterexample: with one raw hit failing the coverage bound, the table
written to the all-hits output holds one row while zero rows survive the
quality filter, so the written table is not one row per surviving hit; it is
written before filtering and before row_index exists. -/
theorem all_hits_written_before_filter :
    (allHitsTable [rLow]).length = 1 ∧
    (qualityKept minDomCovDefault (allHitsTable [rLow])).length = 0 ∧
    ¬ (allHitsTable [rLow]).length =
        (qualityKept minDomCovDefault (allHitsTable [rLow])).length := by
  decide

/-- C6 (amended): the full hit table written to the all-hits output contains
exactly the raw hits, one row each (it is the sorted raw table, written before
the quality filter runs and before row_index is assigned, and carries no
row_index column). -/
theorem all_hits_table_perm (raw : List RawHit) : (allHitsTable raw).Perm raw :=
  sortByLE_perm hitLE raw

/-- C7: for positive-length segments the overlap fraction is symmetric in its
two segments. -/
theorem compute_overlap_symm (s1 e1 s2 e2 : Int) (h1 : s1 < e1) (h2 : s2 < e2) :
    compute_overlap s1 e1 s2 e2 = compute_overlap s2 e2 s1 e1 := by
  unfold compute_overlap
  rw [min_comm e2 e1, max_comm s2 s1, min_comm (e2 - s2) (e1 - s1)]

/-- C7 witness: symmetry at the documented example segments. -/
theorem compute_overlap_symm_witness :
    (10 : Int) < 40 ∧ (20 : Int) < 30 ∧
    compute_overlap 10 40 20 30 = compute_overlap 20 30 10 40 :=
  ⟨by decide, by decide, compute_overlap_symm 10 40 20 30 (by decide) (by decide)⟩

/-- C8: when the shorter segment has zero length the overlap computation
returns 0, and the guard protecting the division is false, so the division by
the shorter length is unreachable. -/
theorem compute_overlap_zero_length (s1 e1 s2 e2 : Int)
    (h : min (e1 - s1) (e2 - s2) = 0) :
    compute_overlap s1 e1 s2 e2 = 0 ∧ ¬ min e1 e2 > max s1 s2 := by
  have hg : ¬ min e1 e2 > max s1 s2 := by omega
  constructor
  · unfold compute_overlap
    rw [if_neg hg]
  · exact hg

/-- C8 witness: the zero-length guard at a concrete degenerate segment. -/
theorem compute_overlap_zero_length_witness :
    min ((5 : Int) - 5) (10 - 0) = 0 ∧
    (compute_overlap 5 5 0 10 = 0 ∧ ¬ min (5 : Int) 10 > max 5 0) :=
  ⟨by decide, compute_overlap_zero_length 5 5 0 10 (by decide)⟩

/-- C9: every row of the final table carries the canonical short profile id
derived from its original profile id, and the canonicalization maps the
documented example PF00001.5 to pfam00001. -/
theorem final_table_short_profile_id (minCov mo : ℚ) (raw : List RawHit) :
    (finalTable minCov mo raw).all
      (fun p => p.2 == shortProfileId p.1.hit.pfam_id) = true ∧
    shortProfileId "PF00001.5" = "pfam00001" := by
  constructor
  · rw [List.all_eq_true]
    intro p hp
    unfold finalTable at hp
    rw [List.mem_map] at hp
    obtain ⟨r, _, rfl⟩ := hp
    exact beq_self_eq_true _
  · rfl

/-- C10: every nonempty feature group has a position holding the group
minimum e-value, the last such position in group order; that position is
never marked for removal by any pairwise comparison, so the group always has
a surviving row and overlap resolution alone never eliminates a feature. -/
theorem group_min_survives_overlap (mo : ℚ) (rows : List IndexedHit)
    (h : rows ≠ []) :
    ∃ k, k < rows.length ∧
      (∀ t, t < rows.length →
        (rows.getD k default).hit.evalue ≤ (rows.getD t default).hit.evalue) ∧
      (∀ t, k < t → t < rows.length →
        (rows.getD k default).hit.evalue < (rows.getD t default).hit.evalue) ∧
      k ∉ markedPositions mo rows ∧
      groupSurvivors mo rows ≠ [] := by
  obtain ⟨k, hk, hmin, hstrict⟩ :=
    exists_last_min (fun t => (rows.getD t default).hit.evalue) rows.length
      (List.length_pos.mpr h)
  have hnotmarked : k ∉ markedPositions mo rows := by
    intro hmem
    unfold markedPositions at hmem
    rw [List.mem_map] at hmem
    obtain ⟨ev, hev, hfst⟩ := hmem
    obtain ⟨p, s⟩ := ev
    simp only at hfst
    subst hfst
    obtain ⟨i, j, hij, hjlen, _, hcase⟩ := overlapMarkEvents_mem_spec mo rows p s hev
    rcases hcase with ⟨hev2, rfl, _⟩ | ⟨hev2, rfl, _⟩
    · exact absurd hev2 (not_lt.mpr (hmin i (lt_trans hij hjlen)))
    · exact hev2 (hstrict j hij hjlen)
  refine ⟨k, hk, hmin, hstrict, hnotmarked, ?_⟩
  have hkmem : k ∈ groupSurvivors mo rows := by
    unfold groupSurvivors
    rw [List.mem_filter]
    refine ⟨List.mem_range.mpr hk, ?_⟩
    simpa using hnotmarked
  exact List.ne_nil_of_mem hkmem

/-- C10 witness: the survival guarantee at a concrete two-row group. -/
theorem group_min_survives_overlap_witness :
    ([ihC, ihD] : List IndexedHit) ≠ [] ∧
    (∃ k, k < ([ihC, ihD] : List IndexedHit).length ∧
      (∀ t, t < ([ihC, ihD] : List IndexedHit).length →
        (([ihC, ihD] : List IndexedHit).getD k default).hit.evalue ≤
          (([ihC, ihD] : List IndexedHit).getD t default).hit.evalue) ∧
      (∀ t, k < t → t < ([ihC, ihD] : List IndexedHit).length →
        (([ihC, ihD] : List IndexedHit).getD k default).hit.evalue <
          (([ihC, ihD] : List IndexedHit).getD t default).hit.evalue) ∧
      k ∉ markedPositions minOverlapDefault [ihC, ihD] ∧
      groupSurvivors minOverlapDefault [ihC, ihD] ≠ []) :=
  ⟨by decide, group_min_survives_overlap minOverlapDefault [ihC, ihD] (by decide)⟩
